import Mathlib

/-!
Verification of the passto core derivation pipeline (src/passto/src/lib.rs)
against its natural-language specification.

Shallow embedding conventions:
* Rust `&[u8]` / `Vec<u8>` byte sequences are `List Nat` (each entry a byte value).
* Rust `String` values are `List Char` (Unicode scalar values); the Rust
  byte-length `String::len` is `utf8Len` below.
* A Rust panic is modelled as `Option.none`; fallible functions returning
  `Result` are modelled with `Except HashingError`.
* `BigUint` values are `Nat`.
-/

namespace Passto

/-- Error type, from `enum HashingError`.  The deserialization payload
(`serde_json::Error`) is irrelevant to the claims and is dropped. -/
inductive HashingError where
  | CustomAlphabetTooShort
  | Deserialization
deriving DecidableEq

/-- From `enum HashingAlgorithm`. -/
inductive HashingAlgorithm where
  | Sha256
  | Sha512
deriving DecidableEq

/-- From `enum DigestAlgorithm`.  The custom alphabet `String` is a `List Char`. -/
inductive DigestAlgorithm where
  | Hex
  | Base64
  | Base64Url
  | CustomAlphabet (alphabet : List Char)
deriving DecidableEq

/-- From `enum SaltingAlgorithm`; `Zip` carries the `usize` chunk size. -/
inductive SaltingAlgorithm where
  | Prepend
  | Append
  | Zip (n : Nat)
deriving DecidableEq

/-- From `struct AlgorithmSettings`. -/
structure AlgorithmSettings where
  hashing : HashingAlgorithm
  max_length : Option Nat
  digest : DigestAlgorithm
  salting : SaltingAlgorithm
  hashing_iterations : Nat
  salting_iterations : Nat
deriving DecidableEq

/-- Rust `slice::chunks(n)` for `n > 0`: consecutive chunks of `n` elements,
the final chunk possibly shorter.  (Rust panics on `n = 0`; callers below
guard that case explicitly, and for `n = 0` this Lean function happens to
behave like chunk size 1, a value the guard makes unreachable.) -/
def chunks {α : Type} (n : Nat) (l : List α) : List (List α) :=
  match l with
  | [] => []
  | x :: xs => (x :: xs.take (n - 1)) :: chunks n (xs.drop (n - 1))
termination_by l.length
decreasing_by simp; omega

/-- From `fn salt`.  `Option.none` models the Rust panic raised by
`slice::chunks` when the `Zip` chunk size is `0`; all other branches are
total.  The `Zip` branch zips the salt chunk sequence with the data chunk
sequence and flattens each pair salt-chunk-first, exactly as the source's
`salt.chunks(*n).zip(data.chunks(*n)).flat_map(..)`. -/
def salt (salting_algorithm : SaltingAlgorithm) (data saltBytes : List Nat) :
    Option (List Nat) :=
  match salting_algorithm with
  | .Append => some (data ++ saltBytes)
  | .Prepend => some (saltBytes ++ data)
  | .Zip n =>
      if n = 0 then none
      else some (((chunks n saltBytes).zip (chunks n data)).flatMap
        (fun p => p.1 ++ p.2))

theorem chunks_flatten {α : Type} (n : Nat) (hn : 0 < n) (l : List α) :
    (chunks n l).flatten = l := by
  induction l using chunks.induct n with
  | case1 => simp [chunks]
  | case2 x xs ih =>
      simp only [chunks, List.flatten_cons, ih]
      simp

theorem chunks_mem_length {α : Type} (n : Nat) (hn : 0 < n) (l : List α) :
    ∀ c ∈ chunks n l, 0 < c.length ∧ c.length ≤ n := by
  induction l using chunks.induct n with
  | case1 => simp [chunks]
  | case2 x xs ih =>
      intro c hc
      simp only [chunks, List.mem_cons] at hc
      rcases hc with rfl | hc
      · constructor
        · simp
        · simp only [List.length_cons, List.length_take]
          omega
      · exact ih c hc

theorem chunks_dropLast_length {α : Type} (n : Nat) (hn : 0 < n) (l : List α) :
    ∀ c ∈ (chunks n l).dropLast, c.length = n := by
  induction l using chunks.induct n with
  | case1 => simp [chunks]
  | case2 x xs ih =>
      intro c hc
      rw [chunks] at hc
      rcases h : chunks n (xs.drop (n - 1)) with _ | ⟨d, ds⟩
      · rw [h] at hc; simp at hc
      · rw [h] at hc
        rw [List.dropLast_cons_of_ne_nil (by simp)] at hc
        rcases List.mem_cons.mp hc with rfl | hc2
        · -- the rest is non-empty, so `xs.drop (n-1)` is non-empty and the
          -- first chunk took a full `n - 1` elements after `x`
          have hne : xs.drop (n - 1) ≠ [] := by
            intro he
            rw [he] at h
            simp [chunks] at h
          have hlen : n - 1 ≤ xs.length := by
            by_contra hlt
            exact hne (List.drop_eq_nil_of_le (by omega))
          simp only [List.length_cons, List.length_take]
          omega
        · exact ih c (by rw [h]; exact hc2)

theorem chunks_length_dvd {α : Type} (n : Nat) (hn : 0 < n) (l : List α)
    (hd : n ∣ l.length) :
    (∀ c ∈ chunks n l, c.length = n) ∧ (chunks n l).length = l.length / n := by
  induction l using chunks.induct n with
  | case1 => simp [chunks]
  | case2 x xs ih =>
      have hxlen : n ≤ xs.length + 1 := by
        rcases hd with ⟨k, hk⟩
        simp only [List.length_cons] at hk
        rcases k with _ | k
        · omega
        · have : n * 1 ≤ n * (k + 1) := Nat.mul_le_mul_left n (by omega)
          omega
      have hdrop : n ∣ (xs.drop (n - 1)).length := by
        rcases hd with ⟨k, hk⟩
        simp only [List.length_cons] at hk
        have hdl : (xs.drop (n - 1)).length = xs.length - (n - 1) := by simp
        rcases k with _ | k
        · omega
        · refine ⟨k, ?_⟩
          have hm : n * (k + 1) = n * k + n := by ring
          omega
      obtain ⟨ih1, ih2⟩ := ih hdrop
      constructor
      · intro c hc
        simp only [chunks, List.mem_cons] at hc
        rcases hc with rfl | hc
        · simp only [List.length_cons, List.length_take]
          omega
        · exact ih1 c hc
      · simp only [chunks, List.length_cons, ih2]
        have hdl : (xs.drop (n - 1)).length = xs.length + 1 - n := by
          simp; omega
        rw [hdl]
        rcases hd with ⟨k, hk⟩
        simp only [List.length_cons] at hk
        rcases k with _ | k
        · omega
        · rw [hk]
          have h1 : n * (k + 1) - n = n * k := by ring_nf; omega
          rw [h1, Nat.mul_div_cancel_left k hn, Nat.mul_div_cancel_left _ hn]

theorem zip_flatMap_length (n : Nat) (l1 l2 : List (List Nat))
    (h1 : ∀ c ∈ l1, c.length = n) (h2 : ∀ c ∈ l2, c.length = n) :
    ((l1.zip l2).flatMap (fun p => p.1 ++ p.2)).length
      = 2 * n * min l1.length l2.length := by
  induction l1 generalizing l2 with
  | nil => simp
  | cons a as ih =>
      cases l2 with
      | nil => simp
      | cons b bs =>
          have ha : a.length = n := h1 a (by simp)
          have hb : b.length = n := h2 b (by simp)
          simp only [List.zip_cons_cons, List.flatMap_cons, List.length_append,
            List.length_cons, ha, hb]
          rw [ih bs (fun c hc => h1 c (by simp [hc]))
            (fun c hc => h2 c (by simp [hc]))]
          have hmin : min (as.length + 1) (bs.length + 1)
              = min as.length bs.length + 1 := by omega
          rw [hmin, Nat.mul_add, Nat.mul_one]
          omega

/-- Claim C5: for positive `n`, `salt (Zip n)` chunks both inputs into
consecutive `n`-byte chunks (final chunk possibly shorter), pairs the chunk
sequences positionally stopping at the shorter one, and emits, per pair, the
salt chunk followed by the data chunk; for lengths divisible by `n` the
result length is `2 * n * min (data.length / n) (saltBytes.length / n)`. -/
theorem salt_zip_spec (n : Nat) (hn : 0 < n) (data saltBytes : List Nat) :
    ∃ r, salt (.Zip n) data saltBytes = some r ∧
      r = ((chunks n saltBytes).zip (chunks n data)).flatMap
        (fun p => p.1 ++ p.2) ∧
      (chunks n data).flatten = data ∧
      (chunks n saltBytes).flatten = saltBytes ∧
      (∀ c ∈ chunks n data, 0 < c.length ∧ c.length ≤ n) ∧
      (∀ c ∈ (chunks n data).dropLast, c.length = n) ∧
      (∀ c ∈ chunks n saltBytes, 0 < c.length ∧ c.length ≤ n) ∧
      (∀ c ∈ (chunks n saltBytes).dropLast, c.length = n) ∧
      ((chunks n saltBytes).zip (chunks n data)).length
        = min (chunks n saltBytes).length (chunks n data).length ∧
      (n ∣ data.length → n ∣ saltBytes.length →
        r.length = 2 * n * min (data.length / n) (saltBytes.length / n)) := by
  refine ⟨_, by simp [salt, Nat.pos_iff_ne_zero.mp hn], rfl,
    chunks_flatten n hn data, chunks_flatten n hn saltBytes,
    chunks_mem_length n hn data, chunks_dropLast_length n hn data,
    chunks_mem_length n hn saltBytes, chunks_dropLast_length n hn saltBytes,
    by simp [List.length_zip], ?_⟩
  intro hdd hds
  obtain ⟨hcd, hld⟩ := chunks_length_dvd n hn data hdd
  obtain ⟨hcs, hls⟩ := chunks_length_dvd n hn saltBytes hds
  rw [zip_flatMap_length n _ _ hcs hcd, hld, hls, Nat.min_comm]

theorem salt_zip_spec_witness :
    (0 < 2) ∧
    ∃ r, salt (.Zip 2) [1, 2, 3, 4] [5, 6] = some r ∧
      r = ((chunks 2 [5, 6]).zip (chunks 2 [1, 2, 3, 4])).flatMap
        (fun p => p.1 ++ p.2) ∧
      (chunks 2 [1, 2, 3, 4]).flatten = [1, 2, 3, 4] ∧
      (chunks 2 [5, 6]).flatten = [5, 6] ∧
      (∀ c ∈ chunks 2 [1, 2, 3, 4], 0 < c.length ∧ c.length ≤ 2) ∧
      (∀ c ∈ (chunks 2 [1, 2, 3, 4]).dropLast, c.length = 2) ∧
      (∀ c ∈ chunks 2 [5, 6], 0 < c.length ∧ c.length ≤ 2) ∧
      (∀ c ∈ (chunks 2 [5, 6]).dropLast, c.length = 2) ∧
      ((chunks 2 [5, 6]).zip (chunks 2 [1, 2, 3, 4])).length
        = min (chunks 2 [5, 6]).length (chunks 2 [1, 2, 3, 4]).length ∧
      (2 ∣ ([1, 2, 3, 4] : List Nat).length → 2 ∣ ([5, 6] : List Nat).length →
        List.length (((chunks 2 [5, 6]).zip (chunks 2 [1, 2, 3, 4])).flatMap
          (fun p => p.1 ++ p.2))
          = 2 * 2 * min (([1, 2, 3, 4] : List Nat).length / 2)
              (([5, 6] : List Nat).length / 2)) := by
  have h := salt_zip_spec 2 (by decide) [1, 2, 3, 4] [5, 6]
  obtain ⟨r, h1, h2, rest⟩ := h
  subst h2
  exact ⟨by decide, _, h1, rfl, rest⟩

/-- Claim C7 counterexample: at chunk size `0` the code panics inside
`slice::chunks` (modelled as `none`) instead of returning a dedicated error;
here evaluated at the concrete input `data = [1, 2, 3]`, `salt = [4, 5]`. -/
theorem salt_zip_zero_panics_cex : salt (.Zip 0) [1, 2, 3] [4, 5] = none := by
  rfl

/-- Claim C7 (amended): `salt (Zip 0)` panics, via the non-zero chunk-size
assertion of `slice::chunks`, for every input (modelled as `none`); it never
returns a dedicated error and, being a total function here, never diverges. -/
theorem salt_zip_zero_panics (data saltBytes : List Nat) :
    salt (.Zip 0) data saltBytes = none := rfl

/-- Claim C8: `Prepend` yields `saltBytes ++ data`, `Append` yields
`data ++ saltBytes`, and for non-empty inputs both results have length
`data.length + saltBytes.length`. -/
theorem salt_prepend_append_concat (data saltBytes : List Nat) :
    salt .Prepend data saltBytes = some (saltBytes ++ data) ∧
    salt .Append data saltBytes = some (data ++ saltBytes) ∧
    (data ≠ [] → saltBytes ≠ [] →
      ∃ p q, salt .Prepend data saltBytes = some p ∧
        salt .Append data saltBytes = some q ∧
        p.length = data.length + saltBytes.length ∧
        q.length = data.length + saltBytes.length) := by
  refine ⟨rfl, rfl, fun _ _ => ⟨_, _, rfl, rfl, ?_, ?_⟩⟩
  · simp [Nat.add_comm]
  · simp

theorem salt_prepend_append_concat_witness :
    salt .Prepend [1, 2] [3] = some ([3] ++ [1, 2]) ∧
    salt .Append [1, 2] [3] = some ([1, 2] ++ [3]) ∧
    ∃ p q, salt .Prepend [1, 2] [3] = some p ∧
      salt .Append [1, 2] [3] = some q ∧
      p.length = ([1, 2] : List Nat).length + ([3] : List Nat).length ∧
      q.length = ([1, 2] : List Nat).length + ([3] : List Nat).length := by
  obtain ⟨h1, h2, h3⟩ := salt_prepend_append_concat [1, 2] [3]
  exact ⟨h1, h2, h3 (by decide) (by decide)⟩

/-! ## Digest / encoding stage -/

/-- Rust `String::len`: the UTF-8 byte length of a string. -/
def utf8Len (l : List Char) : Nat := (l.map Char.utf8Size).sum

/-- Rust `Vec<char>::sort_unstable`: sorts the characters ascending by code
point.  Note the source sorts but does NOT deduplicate. -/
def sortChars (l : List Char) : List Char := List.insertionSort (· ≤ ·) l

/-- `BigUint::from_bytes_le`: little-endian base-256 value of a byte list. -/
def fromBytesLE : List Nat → Nat
  | [] => 0
  | b :: bs => b + 256 * fromBytesLE bs

/-- The source's `while bigint > 0` division loop, fuel-indexed so that it is
structurally recursive (the fuel argument is sufficient whenever
`v ≤ fuel` and `2 ≤ base`, see `toDigitsAux_eq_digits`). -/
def toDigitsAux (base : Nat) : Nat → Nat → List Nat
  | 0, _ => []
  | fuel + 1, v => if v = 0 then [] else v % base :: toDigitsAux base fuel (v / base)

/-- Little-endian base-`base` digits of `v`, least significant first. -/
def toDigits (base v : Nat) : List Nat := toDigitsAux base v v

/-- Lowercase hex digit characters, from the `hex` crate's encoding table. -/
def hexTable : List Char := "0123456789abcdef".toList

/-- `hex::encode`: two lowercase hex characters per byte. -/
def hexEncode : List Nat → List Char
  | [] => []
  | b :: bs => hexTable.getD (b / 16) ' ' :: hexTable.getD (b % 16) ' ' :: hexEncode bs

/-- The standard base64 alphabet used by `general_purpose::STANDARD`. -/
def base64Table : List Char :=
  "ABCDEFGHIJKLMNOPQRSTUVWXYZabcdefghijklmnopqrstuvwxyz0123456789+/".toList

/-- The URL-safe base64 alphabet used by the `base64_url` crate. -/
def base64UrlTable : List Char :=
  "ABCDEFGHIJKLMNOPQRSTUVWXYZabcdefghijklmnopqrstuvwxyz0123456789-_".toList

/-- `general_purpose::STANDARD.encode`: standard base64 with `=` padding. -/
def base64Encode : List Nat → List Char
  | [] => []
  | [a] => [base64Table.getD (a / 4) ' ', base64Table.getD (a % 4 * 16) ' ', '=', '=']
  | [a, b] => [base64Table.getD (a / 4) ' ',
      base64Table.getD (a % 4 * 16 + b / 16) ' ',
      base64Table.getD (b % 16 * 4) ' ', '=']
  | a :: b :: c :: rest =>
      base64Table.getD (a / 4) ' ' ::
      base64Table.getD (a % 4 * 16 + b / 16) ' ' ::
      base64Table.getD (b % 16 * 4 + c / 64) ' ' ::
      base64Table.getD (c % 64) ' ' :: base64Encode rest

/-- `base64_url::encode`: URL-safe base64 without padding. -/
def base64UrlEncode : List Nat → List Char
  | [] => []
  | [a] => [base64UrlTable.getD (a / 4) ' ', base64UrlTable.getD (a % 4 * 16) ' ']
  | [a, b] => [base64UrlTable.getD (a / 4) ' ',
      base64UrlTable.getD (a % 4 * 16 + b / 16) ' ',
      base64UrlTable.getD (b % 16 * 4) ' ']
  | a :: b :: c :: rest =>
      base64UrlTable.getD (a / 4) ' ' ::
      base64UrlTable.getD (a % 4 * 16 + b / 16) ' ' ::
      base64UrlTable.getD (b % 16 * 4 + c / 64) ' ' ::
      base64UrlTable.getD (c % 64) ' ' :: base64UrlEncode rest

/-- From `fn digest`.  The too-short check compares the Rust byte length
`alphabet.len()` (here `utf8Len`) with 16; the characters are then sorted
(without deduplication) and the digit base is the sorted character COUNT.
The source's `alphabet.get(digit_idx).unwrap()` is modelled with `getD`;
`digest_custom_spec` shows the index is always in range, so the default is
never produced and the `unwrap` never panics. -/
def digest (digest_algorithm : DigestAlgorithm) (data : List Nat) :
    Except HashingError (List Char) :=
  match digest_algorithm with
  | .Base64 => .ok (base64Encode data)
  | .Base64Url => .ok (base64UrlEncode data)
  | .Hex => .ok (hexEncode data)
  | .CustomAlphabet alphabet =>
      if utf8Len alphabet < 16 then .error .CustomAlphabetTooShort
      else
        .ok ((toDigits (sortChars alphabet).length (fromBytesLE data)).map
          (fun i => (sortChars alphabet).getD i ' '))

theorem toDigitsAux_eq_digits (base : Nat) (hb : 2 ≤ base) (fuel v : Nat)
    (hv : v ≤ fuel) : toDigitsAux base fuel v = Nat.digits base v := by
  induction fuel generalizing v with
  | zero =>
      have : v = 0 := by omega
      subst this
      simp [toDigitsAux]
  | succ fuel ih =>
      by_cases h0 : v = 0
      · subst h0; simp [toDigitsAux]
      · have hlt : v / base < v := Nat.div_lt_self (by omega) (by omega)
        rw [toDigitsAux]
        simp only [h0, if_false]
        rw [Nat.digits_def' (show 1 < base by omega) (show 0 < v by omega),
          ih (v / base) (by omega)]

theorem toDigits_eq_digits (base v : Nat) (hb : 2 ≤ base) :
    toDigits base v = Nat.digits base v :=
  toDigitsAux_eq_digits base hb v v (Nat.le_refl v)

theorem fromBytesLE_eq_ofDigits (l : List Nat) :
    fromBytesLE l = Nat.ofDigits 256 l := by
  induction l with
  | nil => simp [fromBytesLE]
  | cons b bs ih => simp [fromBytesLE, Nat.ofDigits_cons, ih]

theorem length_le_utf8Len (l : List Char) : l.length ≤ utf8Len l := by
  induction l with
  | nil => simp [utf8Len]
  | cons c cs ih =>
      have := Char.utf8Size_pos c
      simp only [utf8Len, List.map_cons, List.sum_cons, List.length_cons]
      simp only [utf8Len] at ih
      omega

theorem sortChars_length (l : List Char) : (sortChars l).length = l.length :=
  (List.perm_insertionSort _ l).length_eq

theorem ofDigits_eq_zero_of_all_zero (data : List Nat)
    (hz : ∀ b ∈ data, b = 0) : Nat.ofDigits 256 data = 0 := by
  induction data with
  | nil => simp
  | cons b bs ih =>
      rw [Nat.ofDigits_cons, hz b (by simp), ih (fun x hx => hz x (by simp [hx]))]

/-- Claim C1: for an alphabet of at least 16 characters, `digest` sorts the
alphabet, reads the bytes as one little-endian arbitrary-precision integer,
and emits the little-endian base-`|alphabet|` digits (least significant
first, never reversed) through the sorted alphabet; every digit index is in
range, and an all-zero input yields the empty string. -/
theorem digest_custom_spec (alphabet : List Char) (data : List Nat)
    (h16 : 16 ≤ alphabet.length) :
    List.Sorted (· ≤ ·) (sortChars alphabet) ∧
    (sortChars alphabet).Perm alphabet ∧
    digest (.CustomAlphabet alphabet) data =
      .ok ((Nat.digits (sortChars alphabet).length (Nat.ofDigits 256 data)).map
        (fun i => (sortChars alphabet).getD i ' ')) ∧
    (∀ d ∈ Nat.digits (sortChars alphabet).length (Nat.ofDigits 256 data),
      d < (sortChars alphabet).length) ∧
    ((∀ b ∈ data, b = 0) → digest (.CustomAlphabet alphabet) data = .ok []) := by
  have hlen : (sortChars alphabet).length = alphabet.length := sortChars_length alphabet
  have hbase : 2 ≤ (sortChars alphabet).length := by omega
  have hbytes : ¬ utf8Len alphabet < 16 := by
    have := length_le_utf8Len alphabet
    omega
  have hmain : digest (.CustomAlphabet alphabet) data =
      .ok ((Nat.digits (sortChars alphabet).length (Nat.ofDigits 256 data)).map
        (fun i => (sortChars alphabet).getD i ' ')) := by
    simp only [digest, hbytes, if_false]
    rw [toDigits_eq_digits _ _ hbase, fromBytesLE_eq_ofDigits]
  refine ⟨List.sorted_insertionSort _ _, List.perm_insertionSort _ _, hmain,
    fun d hd => Nat.digits_lt_base (by omega) hd, fun hz => ?_⟩
  rw [hmain, ofDigits_eq_zero_of_all_zero data hz]
  simp

/-- Concrete 16-character alphabet (the hex symbols, already distinct). -/
def alphaHex : List Char := "0123456789abcdef".toList

theorem digest_custom_spec_witness :
    16 ≤ alphaHex.length ∧
    (List.Sorted (· ≤ ·) (sortChars alphaHex) ∧
     (sortChars alphaHex).Perm alphaHex ∧
     digest (.CustomAlphabet alphaHex) [0, 1] =
       .ok ((Nat.digits (sortChars alphaHex).length (Nat.ofDigits 256 [0, 1])).map
         (fun i => (sortChars alphaHex).getD i ' ')) ∧
     (∀ d ∈ Nat.digits (sortChars alphaHex).length (Nat.ofDigits 256 [0, 1]),
       d < (sortChars alphaHex).length) ∧
     ((∀ b ∈ ([0, 1] : List Nat), b = 0) →
       digest (.CustomAlphabet alphaHex) [0, 1] = .ok [])) :=
  ⟨by decide, digest_custom_spec alphaHex [0, 1] (by decide)⟩

instance {ε α : Type} [DecidableEq ε] [DecidableEq α] :
    DecidableEq (Except ε α) := fun a b =>
  match a, b with
  | .ok x, .ok y =>
      if h : x = y then .isTrue (by rw [h])
      else .isFalse (fun hh => h (by injection hh))
  | .error e, .error f =>
      if h : e = f then .isTrue (by rw [h])
      else .isFalse (fun hh => h (by injection hh))
  | .ok _, .error _ => .isFalse (fun hh => by injection hh)
  | .error _, .ok _ => .isFalse (fun hh => by injection hh)

/-- `alphaHex` with one duplicated character prepended: the same SET of
characters as `alphaHex`, but 17 entries. -/
def alphaHexDup : List Char := '0' :: alphaHex

/-- Claim C2 counterexample: `alphaHexDup` and `alphaHex` contain the same
set of characters, yet encoding the byte `[1]` gives `"0"` with the former
(base 17, duplicate kept by the sort) and `"1"` with the latter (base 16):
the source sorts the alphabet but never deduplicates it. -/
theorem digest_custom_dedup_cex :
    (∀ c ∈ alphaHexDup, c ∈ alphaHex) ∧ (∀ c ∈ alphaHex, c ∈ alphaHexDup) ∧
    digest (.CustomAlphabet alphaHexDup) [1] = .ok ['0'] ∧
    digest (.CustomAlphabet alphaHex) [1] = .ok ['1'] ∧
    digest (.CustomAlphabet alphaHexDup) [1] ≠
      digest (.CustomAlphabet alphaHex) [1] := by
  decide

/-- Claim C2 (amended): the alphabet is sorted but NOT deduplicated before
indexing, so the digit mapping depends on the multiset of characters: two
alphabets that are permutations of one another (same characters with the
same multiplicities, in any order) produce the same encoded string for
every input. -/
theorem digest_custom_perm_invariant (a1 a2 : List Char) (h : a1.Perm a2)
    (data : List Nat) :
    digest (.CustomAlphabet a1) data = digest (.CustomAlphabet a2) data := by
  haveI : IsAntisymm Char (· ≤ ·) := ⟨fun _ _ => le_antisymm⟩
  have hs : sortChars a1 = sortChars a2 :=
    List.eq_of_perm_of_sorted
      (((List.perm_insertionSort _ a1).trans h).trans
        (List.perm_insertionSort _ a2).symm)
      (List.sorted_insertionSort _ a1) (List.sorted_insertionSort _ a2)
  have hu : utf8Len a1 = utf8Len a2 := (h.map Char.utf8Size).sum_eq
  simp only [digest, utf8Len] at *
  simp only [hs, hu]

theorem digest_custom_perm_invariant_witness :
    (List.reverse alphaHex).Perm alphaHex ∧
    digest (.CustomAlphabet (List.reverse alphaHex)) [9, 3] =
      digest (.CustomAlphabet alphaHex) [9, 3] :=
  ⟨by decide, digest_custom_perm_invariant _ _ (by decide) [9, 3]⟩

/-- Eight characters of two UTF-8 bytes each: 8 characters, 16 bytes. -/
def alpha8 : List Char := "ĀāĂăĄąĆć".toList

/-- Claim C3 counterexample: `alpha8` has only 8 characters — fewer than
16 — yet `digest` succeeds on it, because the too-short check measures the
alphabet's Rust byte length (16 UTF-8 bytes), not its character count. -/
theorem digest_short_alphabet_cex :
    alpha8.length = 8 ∧
    digest (.CustomAlphabet alpha8) [5] = .ok ['ą'] := by
  decide

/-- Claim C3 (amended): `digest` fails, with `CustomAlphabetTooShort`,
exactly when the algorithm is `CustomAlphabet` with an alphabet whose UTF-8
byte length is under 16; an alphabet of at least 16 characters (in
particular exactly 16 distinct ones) succeeds for every input, and `Hex`,
`Base64` and `Base64Url` succeed for every input. -/
theorem digest_error_characterization (alg : DigestAlgorithm)
    (data : List Nat) :
    (digest alg data = .error .CustomAlphabetTooShort ↔
      ∃ a, alg = .CustomAlphabet a ∧ utf8Len a < 16) ∧
    ((∃ s, digest alg data = .ok s) ∨
      digest alg data = .error .CustomAlphabetTooShort) ∧
    (∀ a, alg = .CustomAlphabet a → 16 ≤ a.length →
      ∃ s, digest alg data = .ok s) := by
  cases alg with
  | Hex => simp [digest]
  | Base64 => simp [digest]
  | Base64Url => simp [digest]
  | CustomAlphabet a =>
      by_cases h : utf8Len a < 16
      · refine ⟨by simp [digest, h], Or.inr (by simp [digest, h]), ?_⟩
        intro b hb h16
        have hba : b = a := by injection hb.symm
        subst hba
        have := length_le_utf8Len b
        omega
      · have hok : digest (.CustomAlphabet a) data =
            .ok ((toDigits (sortChars a).length (fromBytesLE data)).map
              (fun i => (sortChars a).getD i ' ')) := by
          simp only [digest, h, if_false]
        exact ⟨by simp [digest, h], Or.inl ⟨_, hok⟩, fun b hb _ => ⟨_, hok⟩⟩

theorem digest_error_characterization_witness :
    (digest (.CustomAlphabet "short".toList) [1, 2]
        = .error .CustomAlphabetTooShort ↔
      ∃ a, DigestAlgorithm.CustomAlphabet "short".toList
          = .CustomAlphabet a ∧ utf8Len a < 16) ∧
    ((∃ s, digest (.CustomAlphabet "short".toList) [1, 2] = .ok s) ∨
      digest (.CustomAlphabet "short".toList) [1, 2]
        = .error .CustomAlphabetTooShort) ∧
    (∀ a, DigestAlgorithm.CustomAlphabet "short".toList
        = .CustomAlphabet a → 16 ≤ a.length →
      ∃ s, digest (.CustomAlphabet "short".toList) [1, 2] = .ok s) :=
  digest_error_characterization (.CustomAlphabet "short".toList) [1, 2]

/-- Another eight-character, sixteen-byte alphabet, for claim C10. -/
def alpha8B : List Char := "ĐđĒēĔĕĖė".toList

/-- Claim C10: the too-short check measures the alphabet's UTF-8 byte
length, not its character count: `digest` fails with
`CustomAlphabetTooShort` exactly when `utf8Len < 16`; `alpha8B` has 8
characters but 16 bytes, so it passes the check, and the subsequent digit
indexing then uses the character count 8 as base: bytes `[200, 1]` (value
`456 = 0o710`) encode to the base-8 digits `0, 1, 7` read through the
sorted alphabet. -/
theorem digest_check_counts_bytes :
    (∀ a data, digest (.CustomAlphabet a) data = .error .CustomAlphabetTooShort
      ↔ utf8Len a < 16) ∧
    alpha8B.length = 8 ∧ utf8Len alpha8B = 16 ∧
    digest (.CustomAlphabet alpha8B) [200, 1] =
      .ok ((Nat.digits 8 456).map (fun i => (sortChars alpha8B).getD i ' ')) := by
  refine ⟨?_, by decide, by decide, ?_⟩
  · intro a data
    by_cases h : utf8Len a < 16
    · simp [digest, h]
    · simp [digest, h]
  · rw [← toDigitsAux_eq_digits 8 (by omega) 456 456 (Nat.le_refl 456)]
    decide

/-! ## Hashing stage

The source's `hash` dispatches to the `sha2` crate.  That crate is not part
of this repository; per spec 4.2 it must be the standard, unmodified
SHA-256 / SHA-512 of FIPS 180-4, which is what is embedded here (generic
over the word size, round constants and shift amounts shared by the two
algorithms).  `hash_sha256_empty_vector` checks the well-known empty-input
digest from spec 8. -/

def sha256K : List Nat := [
  1116352408, 1899447441, 3049323471, 3921009573, 961987163, 1508970993,
  2453635748, 2870763221, 3624381080, 310598401, 607225278, 1426881987,
  1925078388, 2162078206, 2614888103, 3248222580, 3835390401, 4022224774,
  264347078, 604807628, 770255983, 1249150122, 1555081692, 1996064986,
  2554220882, 2821834349, 2952996808, 3210313671, 3336571891, 3584528711,
  113926993, 338241895, 666307205, 773529912, 1294757372, 1396182291,
  1695183700, 1986661051, 2177026350, 2456956037, 2730485921, 2820302411,
  3259730800, 3345764771, 3516065817, 3600352804, 4094571909, 275423344,
  430227734, 506948616, 659060556, 883997877, 958139571, 1322822218,
  1537002063, 1747873779, 1955562222, 2024104815, 2227730452, 2361852424,
  2428436474, 2756734187, 3204031479, 3329325298 ]

def sha256H0 : List Nat := [
  1779033703, 3144134277, 1013904242, 2773480762,
  1359893119, 2600822924, 528734635, 1541459225 ]

def sha512K : List Nat := [
  4794697086780616226, 8158064640168781261, 13096744586834688815,
  16840607885511220156, 4131703408338449720, 6480981068601479193,
  10538285296894168987, 12329834152419229976, 15566598209576043074,
  1334009975649890238, 2608012711638119052, 6128411473006802146,
  8268148722764581231, 9286055187155687089, 11230858885718282805,
  13951009754708518548, 16472876342353939154, 17275323862435702243,
  1135362057144423861, 2597628984639134821, 3308224258029322869,
  5365058923640841347, 6679025012923562964, 8573033837759648693,
  10970295158949994411, 12119686244451234320, 12683024718118986047,
  13788192230050041572, 14330467153632333762, 15395433587784984357,
  489312712824947311, 1452737877330783856, 2861767655752347644,
  3322285676063803686, 5560940570517711597, 5996557281743188959,
  7280758554555802590, 8532644243296465576, 9350256976987008742,
  10552545826968843579, 11727347734174303076, 12113106623233404929,
  14000437183269869457, 14369950271660146224, 15101387698204529176,
  15463397548674623760, 17586052441742319658, 1182934255886127544,
  1847814050463011016, 2177327727835720531, 2830643537854262169,
  3796741975233480872, 4115178125766777443, 5681478168544905931,
  6601373596472566643, 7507060721942968483, 8399075790359081724,
  8693463985226723168, 9568029438360202098, 10144078919501101548,
  10430055236837252648, 11840083180663258601, 13761210420658862357,
  14299343276471374635, 14566680578165727644, 15097957966210449927,
  16922976911328602910, 17689382322260857208, 500013540394364858,
  748580250866718886, 1242879168328830382, 1977374033974150939,
  2944078676154940804, 3659926193048069267, 4368137639120453308,
  4836135668995329356, 5532061633213252278, 6448918945643986474,
  6902733635092675308, 7801388544844847127 ]

def sha512H0 : List Nat := [
  7640891576956012808, 13503953896175478587,
  4354685564936845355, 11912009170470909681,
  5840696475078001361, 11170449401992604703,
  2270897969802886507, 6620516959819538809 ]

structure Sha2Params where
  bits : Nat
  K : List Nat
  H0 : List Nat
  blockBytes : Nat
  lenBytes : Nat
  sig0r : Nat × Nat × Nat
  sig1r : Nat × Nat × Nat
  bigSig0r : Nat × Nat × Nat
  bigSig1r : Nat × Nat × Nat

def rotr (bits n x : Nat) : Nat := ((x >>> n) ||| (x <<< (bits - n))) % 2 ^ bits

def lowSigma (bits : Nat) (r : Nat × Nat × Nat) (x : Nat) : Nat :=
  rotr bits r.1 x ^^^ rotr bits r.2.1 x ^^^ (x >>> r.2.2)

def highSigma (bits : Nat) (r : Nat × Nat × Nat) (x : Nat) : Nat :=
  rotr bits r.1 x ^^^ rotr bits r.2.1 x ^^^ rotr bits r.2.2 x

def wordBE (bs : List Nat) : Nat := bs.foldl (fun acc b => acc * 256 + b) 0

def toWordsBEAux (wb : Nat) : Nat → List Nat → List Nat
  | 0, _ => []
  | _, [] => []
  | fuel + 1, bytes => wordBE (bytes.take wb) :: toWordsBEAux wb fuel (bytes.drop wb)

def toWordsBE (wb : Nat) (bytes : List Nat) : List Nat :=
  toWordsBEAux wb bytes.length bytes

def bytesBE : Nat → Nat → List Nat
  | 0, _ => []
  | n + 1, v => bytesBE n (v / 256) ++ [v % 256]

def sha2Pad (blockBytes lenBytes : Nat) (msg : List Nat) : List Nat :=
  msg ++ 0x80 ::
    List.replicate ((blockBytes - (msg.length + 1 + lenBytes) % blockBytes) % blockBytes) 0
    ++ bytesBE lenBytes (msg.length * 8)

def sha2Extend (p : Sha2Params) : Nat → List Nat → List Nat
  | 0, ws => ws
  | fuel + 1, ws =>
      let n := ws.length
      let w := (lowSigma p.bits p.sig1r (ws.getD (n - 2) 0) + ws.getD (n - 7) 0
        + lowSigma p.bits p.sig0r (ws.getD (n - 15) 0) + ws.getD (n - 16) 0) % 2 ^ p.bits
      sha2Extend p fuel (ws ++ [w])

def sha2Round (p : Sha2Params) (st : List Nat) (kw : Nat × Nat) : List Nat :=
  let mask := 2 ^ p.bits
  let a := st.getD 0 0
  let b := st.getD 1 0
  let c := st.getD 2 0
  let d := st.getD 3 0
  let e := st.getD 4 0
  let f := st.getD 5 0
  let g := st.getD 6 0
  let t1 := (st.getD 7 0 + highSigma p.bits p.bigSig1r e
    + Nat.xor (Nat.land e f) (Nat.land (Nat.xor e (mask - 1)) g)
    + kw.1 + kw.2) % mask
  let t2 := (highSigma p.bits p.bigSig0r a
    + Nat.xor (Nat.xor (Nat.land a b) (Nat.land a c)) (Nat.land b c)) % mask
  [(t1 + t2) % mask, a, b, c, (d + t1) % mask, e, f, g]

def sha2Block (p : Sha2Params) (h : List Nat) (block : List Nat) : List Nat :=
  let ws := sha2Extend p (p.K.length - 16) (toWordsBE (p.bits / 8) block)
  let fin := (p.K.zip ws).foldl (sha2Round p) h
  (h.zip fin).map (fun q => (q.1 + q.2) % 2 ^ p.bits)

def sha2Blocks (p : Sha2Params) : Nat → List Nat → List Nat → List Nat
  | 0, h, _ => h
  | fuel + 1, h, bytes =>
      match bytes with
      | [] => h
      | bs => sha2Blocks p fuel (sha2Block p h (bs.take p.blockBytes))
          (bs.drop p.blockBytes)

def sha2 (p : Sha2Params) (msg : List Nat) : List Nat :=
  let padded := sha2Pad p.blockBytes p.lenBytes msg
  (sha2Blocks p padded.length p.H0 padded).flatMap (fun w => bytesBE (p.bits / 8) w)

def sha256Params : Sha2Params := {
  bits := 32, K := sha256K, H0 := sha256H0, blockBytes := 64, lenBytes := 8,
  sig0r := (7, 18, 3), sig1r := (17, 19, 10),
  bigSig0r := (2, 13, 22), bigSig1r := (6, 11, 25) }

def sha512Params : Sha2Params := {
  bits := 64, K := sha512K, H0 := sha512H0, blockBytes := 128, lenBytes := 16,
  sig0r := (1, 8, 7), sig1r := (19, 61, 6),
  bigSig0r := (28, 34, 39), bigSig1r := (14, 18, 41) }

/-- From `fn hash`: dispatch on the algorithm, returning the digest bytes. -/
def hash (hashing_algorithm : HashingAlgorithm) (data : List Nat) : List Nat :=
  match hashing_algorithm with
  | .Sha256 => sha2 sha256Params data
  | .Sha512 => sha2 sha512Params data

set_option maxRecDepth 100000 in
theorem hash_sha256_empty_vector :
    hash .Sha256 [] = [227, 176, 196, 66, 152, 252, 28, 20, 154, 251, 244,
      200, 153, 111, 185, 36, 39, 174, 65, 228, 100, 155, 147, 76, 164, 149,
      153, 27, 120, 82, 184, 85] := by
  decide

set_option maxRecDepth 100000 in
theorem hash_sha512_ab_vector :
    hash .Sha512 [97, 98] = [45, 64, 138, 7, 23, 236, 24, 129, 88, 39, 138,
      121, 108, 104, 144, 68, 54, 29, 198, 253, 222, 40, 214, 240, 73, 115,
      184, 8, 150, 225, 130, 57, 117, 205, 191, 18, 235, 99, 249, 224, 89,
      19, 40, 238, 35, 93, 128, 233, 181, 191, 26, 166, 164, 79, 70, 23,
      255, 60, 175, 100, 0, 235, 23, 45] := by
  decide

/-! ## Pipeline orchestrator -/

/-- Rust byte slicing `&digested[0..n]` on a `String`: takes the first `n`
UTF-8 BYTES.  Returns `none` — a panic — when `n` exceeds the byte length
or falls inside a multi-byte character (not a char boundary). -/
def byteSlice (s : List Char) (n : Nat) : Option (List Char) :=
  if n = 0 then some []
  else
    match s with
    | [] => none
    | c :: cs =>
        if c.utf8Size ≤ n then (byteSlice cs (n - c.utf8Size)).map (fun t => c :: t)
        else none

/-- The `for _ in 1..settings.salting_iterations` loop of `fn encode`:
`k` further salting passes, each re-salting the previous output with the
passphrase.  `none` propagates a panic from `salt`. -/
def saltIterate (alg : SaltingAlgorithm) (pass : List Nat) :
    Nat → List Nat → Option (List Nat)
  | 0, acc => some acc
  | k + 1, acc =>
      match salt alg acc pass with
      | none => none
      | some next => saltIterate alg pass k next

/-- The `for _ in 1..settings.hashing_iterations` loop of `fn encode`:
`k` further hashing passes, each re-hashing the previous digest. -/
def hashIterate (alg : HashingAlgorithm) : Nat → List Nat → List Nat
  | 0, acc => acc
  | k + 1, acc => hashIterate alg k (hash alg acc)

/-- The salting phase of `fn encode`: one pass over the original service
bytes (`code`), then `salting_iterations - 1` further passes (Rust's range
`1..n` is empty for `n ≤ 1`, and so is `n - 1` in truncated subtraction). -/
def saltPhase (passphrase code : List Nat) (st : AlgorithmSettings) :
    Option (List Nat) :=
  match salt st.salting code passphrase with
  | none => none
  | some s0 => saltIterate st.salting passphrase (st.salting_iterations - 1) s0

/-- The tail of `fn encode` after hashing: digest the bytes, then apply the
`max_length` cap via Rust's byte slicing `digested[0..n].to_owned()`, which
runs only when the BYTE length exceeds `n` and panics (`none`) when byte
`n` is not a character boundary. -/
def finalize (st : AlgorithmSettings) (hashed : List Nat) :
    Option (Except HashingError (List Char)) :=
  match digest st.digest hashed with
  | .error e => some (.error e)
  | .ok digested =>
      match st.max_length with
      | none => some (.ok digested)
      | some n =>
          if n < utf8Len digested then
            match byteSlice digested n with
            | none => none
            | some t => some (.ok t)
          else some (.ok digested)

/-- From `fn encode`: salting phase, then one hash plus
`hashing_iterations - 1` further hashes, then digest and truncation. -/
def encode (passphrase code : List Nat) (st : AlgorithmSettings) :
    Option (Except HashingError (List Char)) :=
  match saltPhase passphrase code st with
  | none => none
  | some salted =>
      finalize st (hashIterate st.hashing (st.hashing_iterations - 1)
        (hash st.hashing salted))

theorem hashIterate_eq_iterate (alg : HashingAlgorithm) (k : Nat)
    (acc : List Nat) : hashIterate alg k acc = (fun b => hash alg b)^[k] acc := by
  induction k generalizing acc with
  | zero => rfl
  | succ k ih =>
      rw [hashIterate, ih, Function.iterate_succ_apply]

theorem bind_salt_iterate_none (alg : SaltingAlgorithm) (pass : List Nat)
    (k : Nat) :
    (fun o => Option.bind o (fun b => salt alg b pass))^[k] none = none := by
  induction k with
  | zero => rfl
  | succ k ih => rw [Function.iterate_succ_apply, Option.bind, ih]

theorem saltIterate_eq_iterate (alg : SaltingAlgorithm) (pass : List Nat)
    (k : Nat) (acc : List Nat) :
    (fun o => Option.bind o (fun b => salt alg b pass))^[k] (some acc)
      = saltIterate alg pass k acc := by
  induction k generalizing acc with
  | zero => rfl
  | succ k ih =>
      rw [Function.iterate_succ_apply, saltIterate]
      show (fun o => Option.bind o (fun b => salt alg b pass))^[k]
        (salt alg acc pass) = _
      cases h : salt alg acc pass with
      | none => exact bind_salt_iterate_none alg pass k
      | some next => exact ih next

/-- Claim C6: an iteration count of 0 behaves as 1 — `salting_iterations`
0 and 1 give identical output; `hashing_iterations = k ≥ 1` hashes the
salted bytes exactly `k` times sequentially, each pass applied to the
previous pass's output; and `salting_iterations = m ≥ 1` iterates the
re-salting step `m - 1` times on top of the first pass over the original
service bytes, each extra pass consuming the PREVIOUS output together with
the passphrase. -/
theorem encode_iteration_semantics (passphrase code : List Nat)
    (st : AlgorithmSettings) (k m : Nat) (hk : 1 ≤ k) (hm : 1 ≤ m) :
    encode passphrase code { st with salting_iterations := 0 }
      = encode passphrase code { st with salting_iterations := 1 } ∧
    (∀ salted, saltPhase passphrase code st = some salted →
      encode passphrase code { st with hashing_iterations := k }
        = finalize st ((fun b => hash st.hashing b)^[k] salted)) ∧
    saltPhase passphrase code { st with salting_iterations := m }
      = (fun o => Option.bind o (fun b => salt st.salting b passphrase))^[m - 1]
          (salt st.salting code passphrase) := by
  refine ⟨rfl, ?_, ?_⟩
  · intro salted hsalt
    have h1 : saltPhase passphrase code { st with hashing_iterations := k }
        = some salted := hsalt
    simp only [encode, h1]
    rw [hashIterate_eq_iterate]
    obtain ⟨j, rfl⟩ : ∃ j, k = j + 1 := ⟨k - 1, by omega⟩
    rw [Function.iterate_succ_apply]
    rfl
  · show (match salt st.salting code passphrase with
      | none => none
      | some s0 => saltIterate st.salting passphrase (m - 1) s0) = _
    cases h : salt st.salting code passphrase with
    | none => exact (bind_salt_iterate_none st.salting passphrase (m - 1)).symm
    | some s0 => exact (saltIterate_eq_iterate st.salting passphrase (m - 1) s0).symm

/-- A fixed settings value used by witnesses. -/
def basicSettings : AlgorithmSettings := {
  hashing := .Sha256, max_length := none, digest := .Hex,
  salting := .Prepend, hashing_iterations := 1, salting_iterations := 1 }

theorem encode_iteration_semantics_witness :
    (1 ≤ 2 ∧ 1 ≤ 3) ∧
    (encode [7] [9] { basicSettings with salting_iterations := 0 }
       = encode [7] [9] { basicSettings with salting_iterations := 1 } ∧
     (∀ salted, saltPhase [7] [9] basicSettings = some salted →
       encode [7] [9] { basicSettings with hashing_iterations := 2 }
         = finalize basicSettings
             ((fun b => hash basicSettings.hashing b)^[2] salted)) ∧
     saltPhase [7] [9] { basicSettings with salting_iterations := 3 }
       = (fun o => Option.bind o
           (fun b => salt basicSettings.salting b [7]))^[3 - 1]
           (salt basicSettings.salting [9] [7])) :=
  ⟨⟨by decide, by decide⟩,
    encode_iteration_semantics [7] [9] basicSettings 2 3 (by decide) (by decide)⟩

/-- Sixteen characters of two UTF-8 bytes each (32 bytes): a legal custom
alphabet whose digest output consists solely of 2-byte characters. -/
def alpha16 : List Char := "ĀāĂăĄąĆćĈĉĊċČčĎď".toList

/-- Settings reproducing the truncation panic: custom 2-byte-character
alphabet and an odd `max_length`. -/
def truncPanicSettings : AlgorithmSettings := {
  hashing := .Sha256, max_length := some 5,
  digest := .CustomAlphabet alpha16,
  salting := .Prepend, hashing_iterations := 1, salting_iterations := 1 }

set_option maxRecDepth 1000000 in
/-- Claim C4: the source truncates with the BYTE slice `digested[0..n]`
rather than by character count.  At passphrase `[97]` and service `[98]`
with `truncPanicSettings`, every digest character occupies 2 bytes, so the
slice at byte 5 falls inside a character and the code panics (`none`).
Dropping `max_length` makes the same pipeline succeed, locating the panic
in the truncation step; on pure-ASCII digests byte slicing and character
truncation coincide (`byteSlice "ABCDEFGH" 5 = "ABCDE"`). -/
theorem encode_truncation_byte_slice_panics :
    encode [97] [98] truncPanicSettings = none ∧
    encode [97] [98] { truncPanicSettings with max_length := none } ≠ none ∧
    byteSlice ['A', 'B', 'C', 'D', 'E', 'F', 'G', 'H'] 5
      = some ['A', 'B', 'C', 'D', 'E'] := by
  refine ⟨by decide, by decide, by decide⟩

/-! ## Settings (de)serialization

The source serializes `AlgorithmSettings` with `serde_json::to_string`
(`impl Display`) and parses it back with `serde_json::from_str`
(`AlgorithmSettings::from_string`).  The serde-derived implementations are
generated code that is not part of `src/`, so the structured textual form
is modelled from the spec (4.4 and 6) as a JSON value tree. -/

/-- Modelled from the spec: a JSON-like structured value, sufficient for
the settings' field-labeled textual form of spec 6 (numbers, strings,
null for an absent `max_length`, and field-labeled objects). -/
inductive Json where
  | null
  | num (n : Nat)
  | str (s : List Char)
  | obj (fields : List (String × Json))

/-- Modelled from the spec: `hashing` serializes to `"sha256" | "sha512"`. -/
def hashingToJson : HashingAlgorithm → Json
  | .Sha256 => .str "sha256".toList
  | .Sha512 => .str "sha512".toList

/-- Modelled from the spec: `digest` serializes to
`"hex" | "base64" | "base64-url"` or an object tagging `CustomAlphabet`
with its alphabet string. -/
def digestToJson : DigestAlgorithm → Json
  | .Hex => .str "hex".toList
  | .Base64 => .str "base64".toList
  | .Base64Url => .str "base64-url".toList
  | .CustomAlphabet a => .obj [("CustomAlphabet", .str a)]

/-- Modelled from the spec: `salting` serializes to `"prepend" | "append"`
or an object tagging `Zip` with its chunk size. -/
def saltingToJson : SaltingAlgorithm → Json
  | .Prepend => .str "prepend".toList
  | .Append => .str "append".toList
  | .Zip n => .obj [("Zip", .num n)]

/-- Modelled from the spec: the settings object with its six labeled
fields, `max_length` being an integer or absent (null). -/
def settingsToJson (st : AlgorithmSettings) : Json :=
  .obj [("hashing", hashingToJson st.hashing),
        ("max_length", match st.max_length with
          | none => .null
          | some n => .num n),
        ("digest", digestToJson st.digest),
        ("salting", saltingToJson st.salting),
        ("hashing_iterations", .num st.hashing_iterations),
        ("salting_iterations", .num st.salting_iterations)]

/-- Modelled from the spec: deserialization of the `hashing` field. -/
def hashingFromJson : Json → Except HashingError HashingAlgorithm
  | .str s =>
      if s = "sha256".toList then .ok .Sha256
      else if s = "sha512".toList then .ok .Sha512
      else .error .Deserialization
  | _ => .error .Deserialization

/-- Modelled from the spec: deserialization of the `digest` field. -/
def digestFromJson : Json → Except HashingError DigestAlgorithm
  | .str s =>
      if s = "hex".toList then .ok .Hex
      else if s = "base64".toList then .ok .Base64
      else if s = "base64-url".toList then .ok .Base64Url
      else .error .Deserialization
  | .obj [("CustomAlphabet", .str a)] => .ok (.CustomAlphabet a)
  | _ => .error .Deserialization

/-- Modelled from the spec: deserialization of the `salting` field. -/
def saltingFromJson : Json → Except HashingError SaltingAlgorithm
  | .str s =>
      if s = "prepend".toList then .ok .Prepend
      else if s = "append".toList then .ok .Append
      else .error .Deserialization
  | .obj [("Zip", .num n)] => .ok (.Zip n)
  | _ => .error .Deserialization

/-- Modelled from the spec: deserialization of the optional `max_length`. -/
def maxLengthFromJson : Json → Except HashingError (Option Nat)
  | .null => .ok none
  | .num n => .ok (some n)
  | _ => .error .Deserialization

/-- Modelled from the spec: deserialization of an integer field. -/
def natFromJson : Json → Except HashingError Nat
  | .num n => .ok n
  | _ => .error .Deserialization

/-- Modelled from the spec: `AlgorithmSettings::from_string`, reading back
the six labeled fields. -/
def settingsFromJson : Json → Except HashingError AlgorithmSettings
  | .obj [("hashing", jh), ("max_length", jm), ("digest", jd),
      ("salting", js), ("hashing_iterations", jhi),
      ("salting_iterations", jsi)] => do
      let h ← hashingFromJson jh
      let m ← maxLengthFromJson jm
      let d ← digestFromJson jd
      let s ← saltingFromJson js
      let hi ← natFromJson jhi
      let si ← natFromJson jsi
      pure { hashing := h, max_length := m, digest := d, salting := s,
             hashing_iterations := hi, salting_iterations := si }
  | _ => .error .Deserialization

/-- Claim C9: deserializing the serialized textual form of any settings
value — every algorithm variant, including `CustomAlphabet` and `Zip`, and
every combination of `max_length` and iteration counts — recovers the
original settings value, field by field. -/
theorem settings_roundtrip (st : AlgorithmSettings) :
    settingsFromJson (settingsToJson st) = .ok st := by
  obtain ⟨h, m, d, s, hi, si⟩ := st
  cases h <;> cases d <;> cases s <;> cases m <;> rfl

end Passto
